import Mathlib

/-!
Verification of the safe_dialog masking/demasking frontend and of the
spec-described masking core.

The development shallowly embeds the TypeScript sources:
* `src/src/lib/api.ts` — the axios client (`apiClient.maskText`,
  `apiClient.demaskText`, response interceptor, `handleApiResponse`) and the
  utility functions `renderMaskedHtml` / `extractPlaceholdersFromMasked`;
* the hooks file (`useAddSensitiveEntity`, `useUpdateSensitiveEntity`,
  `useDeleteSensitiveEntity`) and the `SafeDialogApp.handleMaskText` handler;
* the masking/demasking engine itself lives in the Python backend, which is
  not part of the frontend sources; it is modelled from the spec
  (definitions marked `Modelled from the spec:`).

Strings are processed as `List Char`; scanning functions take an explicit
fuel argument (always instantiated with the length of the scanned list) so
that every definition is structurally recursive and kernel-evaluable.
-/

namespace SafeDialog

/-! ### Basic data model (from `src/unnamed/part_005`, the types file) -/

/-- `SensitiveEntity` from the types file: id, name (original value),
placeholder label and optional category. -/
structure SensitiveEntity where
  id : String
  name : String
  placeholder : String
  category : Option String
deriving Repr, DecidableEq

/-- `MaskingApiResponse` (snake_case wire format): `entities_found` is
optional to model a server response that omits or nulls the field. -/
structure MaskingApiResponse where
  masked_text : String
  entities_found : Option (List SensitiveEntity)
  processing_time : Option Nat
deriving Repr, DecidableEq

/-- `MaskingResult` (frontend camelCase format). -/
structure MaskingResult where
  maskedText : String
  entitiesFound : List SensitiveEntity
  processingTime : Option Nat
deriving Repr, DecidableEq

/-- `AppError` from the types file: message plus optional code and status. -/
structure AppError where
  message : String
  code : Option String
  status : Option Nat
deriving Repr, DecidableEq

/-! ### Axios layer and response handling (from `src/src/lib/api.ts`) -/

/-- The JavaScript `a || b` fallback on an optional string: `null`/`undefined`
and the empty string are falsy. -/
def jsOrStr (a : Option String) (b : String) : String :=
  match a with
  | none => b
  | some s => if s = "" then b else s

/-- The JavaScript `a || []` fallback on an optional array: `null`/`undefined`
fall back to the default; an array (even empty) is truthy. -/
def jsOrList (a : Option (List α)) (b : List α) : List α :=
  match a with
  | none => b
  | some l => l

/-- The body of an HTTP response: a payload together with the optional
`success` / `error` / `message` fields of the `ApiResponse` envelope. -/
structure ApiData (α : Type) where
  value : α
  success : Option Bool
  error : Option String
  message : Option String
deriving Repr, DecidableEq

/-- An HTTP response as seen by axios: status code plus body. -/
structure HttpResponse (α : Type) where
  status : Nat
  data : ApiData α
deriving Repr, DecidableEq

/-- Axios default `validateStatus`: 2xx resolves, anything else rejects. -/
def axiosStatusOk (s : Nat) : Bool := 200 ≤ s && s < 300

/-- The `AppError` built by the response interceptor in `api.ts` for a
rejected request: `error.response?.data?.message || error.message ||
'Неизвестная ошибка'`, with the axios error code and the response status. -/
def interceptorAppError (α : Type) (resp : HttpResponse α) (axiosMessage : String)
    (axiosCode : Option String) : AppError :=
  { message := jsOrStr (some (jsOrStr resp.data.message axiosMessage)) "Неизвестная ошибка"
    code := axiosCode
    status := some resp.status }

/-- `handleApiResponse` in `api.ts`: a body with `success === false` throws
`AppError(response.data.error || 'API error')`; otherwise the data is
returned directly. -/
def handleApiResponse (body : ApiData α) : Except AppError α :=
  if body.success = some false then
    .error { message := jsOrStr body.error "API error", code := none, status := none }
  else
    .ok body.value

/-- One API operation through the axios instance: non-2xx responses are
turned into an `AppError` by the response interceptor, 2xx responses go
through `handleApiResponse`. `axiosMessage`/`axiosCode` stand for the
`message`/`code` fields of the `AxiosError` raised by axios itself. -/
def apiOperation (resp : HttpResponse α) (axiosMessage : String)
    (axiosCode : Option String) : Except AppError α :=
  if axiosStatusOk resp.status then
    handleApiResponse resp.data
  else
    .error (interceptorAppError α resp axiosMessage axiosCode)

/-- `apiClient.maskText`: snake_case to camelCase conversion with
`entities_found || []` normalisation. -/
def maskTextConvert (apiResult : MaskingApiResponse) : MaskingResult :=
  { maskedText := apiResult.masked_text
    entitiesFound := jsOrList apiResult.entities_found []
    processingTime := apiResult.processing_time }

/-- `apiClient.maskText` end to end: the HTTP response is run through the
interceptor and `handleApiResponse`, then converted. -/
def maskText (resp : HttpResponse MaskingApiResponse) (axiosMessage : String)
    (axiosCode : Option String) : Except AppError MaskingResult :=
  (apiOperation resp axiosMessage axiosCode).map maskTextConvert

/-- `apiClient.demaskText` posts `\x7b maskedText \x7d` to `/demask-text`:
the request body, as the list of its key/value pairs. The only field is
`maskedText`. -/
def demaskTextRequest (maskedText : String) : List (String × String) :=
  [("maskedText", maskedText)]

/-! ### React-query mutation hooks (from the hooks file, `src/unnamed/part_002`)

Each mutation hook is embedded as the list of effects its `onSuccess`
callback performs, in source order. The react-query cache itself is
modelled by `EntityCache`: `invalidateQueries` drops the cached value, and
a read serves the cache when present, otherwise fetches the server state. -/

/-- Query keys from the hooks file (`queryKeys`). -/
inductive QueryKey where
  | sensitiveEntities
  | systemPrompt
  | health
deriving Repr, DecidableEq

/-- An effect performed by a hook callback. -/
inductive Effect where
  | invalidateQueries (key : QueryKey)
  | toast (title description variant : String)
deriving Repr, DecidableEq

/-- `useAddSensitiveEntity`'s `onSuccess`: invalidate the entity query,
then toast. -/
def useAddSensitiveEntityOnSuccess (newEntity : SensitiveEntity) : List Effect :=
  [ .invalidateQueries .sensitiveEntities
  , .toast "Успешно добавлено"
      ("Чувствительные данные \"" ++ newEntity.name ++ "\" добавлены в справочник")
      "default" ]

/-- `useUpdateSensitiveEntity`'s `onSuccess`. -/
def useUpdateSensitiveEntityOnSuccess (updatedEntity : SensitiveEntity) : List Effect :=
  [ .invalidateQueries .sensitiveEntities
  , .toast "Успешно обновлено"
      ("Чувствительные данные \"" ++ updatedEntity.name ++ "\" обновлены")
      "default" ]

/-- `useDeleteSensitiveEntity`'s `onSuccess` (takes no argument). -/
def useDeleteSensitiveEntityOnSuccess : List Effect :=
  [ .invalidateQueries .sensitiveEntities
  , .toast "Успешно удалено" "Чувствительные данные удалены из справочника" "default" ]

/-- Model of the react-query cache for the sensitive-entities query:
the authoritative server dictionary plus an optional cached copy. -/
structure EntityCache where
  server : List SensitiveEntity
  cache : Option (List SensitiveEntity)
deriving Repr, DecidableEq

/-- Model of react-query `invalidateQueries` and of a toast: invalidating
the sensitive-entities key drops the cached lookup table, a toast leaves
the cache untouched. -/
def applyEffect (st : EntityCache) : Effect → EntityCache
  | .invalidateQueries .sensitiveEntities => { st with cache := none }
  | .invalidateQueries _ => st
  | .toast _ _ _ => st

def applyEffects (st : EntityCache) (effects : List Effect) : EntityCache :=
  effects.foldl applyEffect st

/-- Model of a read through react-query (`useSensitiveEntities`): an
invalidated (absent) cache refetches from the server, a present cache is
served as is. -/
def readEntities (st : EntityCache) : List SensitiveEntity × EntityCache :=
  match st.cache with
  | some v => (v, st)
  | none => (st.server, { st with cache := some st.server })

/-! ### `SafeDialogApp.handleMaskText` (from `src/unnamed/part_002`)

The handler masks the query field and the context field, awaits both with
`Promise.all`, and only then applies the results to the component state;
any rejection lands in the `catch` block, which records the error and
applies nothing. -/

/-- JavaScript whitespace as recognised by `\s` and `String.trim`
(the characters relevant to this code base). -/
def jsWs (c : Char) : Bool :=
  c = ' ' || c = '\t' || c = '\n' || c = '\r' ||
  c = (Char.ofNat 11) || c = (Char.ofNat 12) ||
  c = (Char.ofNat 160) || c = (Char.ofNat 65279)

/-- JavaScript `String.prototype.trim`. -/
def jsTrim (s : String) : String :=
  String.mk (((s.data.dropWhile jsWs).reverse.dropWhile jsWs).reverse)

/-- The component-state fields that `handleMaskText` reads or writes. -/
structure AppStateM where
  queryText : String
  contextText : String
  maskedQueryText : String
  maskedContextText : String
  error : Option String
deriving Repr, DecidableEq

/-- Which field a settled mask promise belongs to. -/
inductive MaskField where
  | query
  | context
deriving Repr, DecidableEq

/-- `Promise.all` over the issued mask calls: if every promise fulfills the
list of results is returned; otherwise the whole call rejects (modelled
with the first rejection in list order, which is exact whenever at most
one promise rejects). -/
def promiseAll (ps : List (MaskField × Except String MaskingResult)) :
    Except String (List (MaskField × MaskingResult)) :=
  match ps with
  | [] => .ok []
  | (f, .ok r) :: rest => (promiseAll rest).map (fun rs => (f, r) :: rs)
  | (_, .error e) :: _ => .error e

/-- `handleMaskText`: skip when both fields are blank; otherwise issue a
mask call per non-blank field, await them together and either apply every
result (clearing `error`) or record the rejection message, leaving both
masked texts untouched. `qOut`/`cOut` are the outcomes of the per-field
`apiClient.maskText` calls. -/
def handleMaskText (prev : AppStateM) (qOut cOut : Except String MaskingResult) :
    AppStateM :=
  let hasQ := jsTrim prev.queryText ≠ ""
  let hasC := jsTrim prev.contextText ≠ ""
  if ¬hasQ ∧ ¬hasC then prev
  else
    let promises :=
      (if hasQ then [(MaskField.query, qOut)] else []) ++
      (if hasC then [(MaskField.context, cOut)] else [])
    match promiseAll promises with
    | .ok results =>
        results.foldl
          (fun st fr =>
            match fr.1 with
            | .query => { st with maskedQueryText := fr.2.maskedText }
            | .context => { st with maskedContextText := fr.2.maskedText })
          { prev with error := none }
    | .error e => { prev with error := some e }

/-! ### `renderMaskedHtml` and `extractPlaceholdersFromMasked`
(from the utils part of `src/src/lib/api.ts`)

The two JavaScript regexes are embedded as deterministic matchers on
`List Char`:
`detailedPattern = \{ID=([^,}]+),\s*TXT=(['"])(.*?)\2\s*\}` and
`simplePattern = \{[A-Z_][A-Z0-9_]*\}`. `.` does not match line
terminators, `(.*?)` is lazy, and backtracking makes both patterns
deterministic (each repetition class excludes the character that follows
it, except the lazy group, whose semantics `lazyValue` reproduces: the
value extends until the first quote that is followed by optional
whitespace and a closing brace, and a line terminator aborts the match). -/

/-- The single-quote character (`'`). -/
def sq : Char := Char.ofNat 39

/-- A character allowed inside the `ID=` group: `[^,}]`. -/
def idChar (c : Char) : Bool := c ≠ ',' && c ≠ '}'

/-- A quote character: `['"]`. -/
def quoteChar (c : Char) : Bool := c = sq || c = '"'

/-- JavaScript line terminators, which `.` does not match. -/
def lineTerm (c : Char) : Bool :=
  c = '\n' || c = '\r' || c = Char.ofNat 0x2028 || c = Char.ofNat 0x2029

/-- The literal `{ID=` that opens a detailed token. -/
def idLit : List Char := '{' :: 'I' :: 'D' :: '=' :: []

/-- The literal `TXT=`. -/
def txtLit : List Char := 'T' :: 'X' :: 'T' :: '=' :: []

/-- A detailed token `{ID=<i>, TXT=<q><v><q>}` as a string (the canonical
form with a single space after the comma, as in the spec's scenario A). -/
def mkDetailedTok (q : Char) (i v : String) : String :=
  String.mk (idLit ++ i.data ++ ',' :: ' ' :: (txtLit ++ q :: (v.data ++ q :: ['}'])))

/-- Strip an expected literal from the front of the input. -/
def stripLit : List Char → List Char → Option (List Char)
  | [], cs => some cs
  | _ :: _, [] => none
  | p :: ps, c :: cs => if c = p then stripLit ps cs else none

/-- Match `\s*\}` at the front of the input, returning the remainder. -/
def closeBrace (cs : List Char) : Option (List Char) :=
  match cs.dropWhile jsWs with
  | '}' :: rest => some rest
  | _ => none

/-- The lazy group `(.*?)\2\s*\}`: the value stops at the first quote
followed by `\s*\}`; any other character (the quote included) is consumed
into the value; a line terminator makes the whole match fail. Returns the
value and the remainder after the closing brace. -/
def lazyValue (q : Char) : List Char → Option (List Char × List Char)
  | [] => none
  | c :: cs =>
    if c = q then
      match closeBrace cs with
      | some rest => some ([], rest)
      | none => (lazyValue q cs).map (fun p => (c :: p.1, p.2))
    else if lineTerm c then none
    else (lazyValue q cs).map (fun p => (c :: p.1, p.2))

/-- Match the detailed pattern at the front of the input. On success
returns the `ID` group, the quote, the `TXT` group and the remainder. -/
def matchDetailed (cs : List Char) : Option (String × Char × String × List Char) :=
  match stripLit idLit cs with
  | none => none
  | some cs1 =>
    if (cs1.takeWhile idChar).isEmpty then none
    else
      match cs1.dropWhile idChar with
      | ',' :: cs3 =>
        match stripLit txtLit (cs3.dropWhile jsWs) with
        | none => none
        | some cs4 =>
          match cs4 with
          | q :: cs5 =>
            if quoteChar q then
              (lazyValue q cs5).map
                (fun p => (String.mk (cs1.takeWhile idChar), q, String.mk p.1, p.2))
            else none
          | [] => none
      | _ => none

/-- First character class of the simple pattern: `[A-Z_]`. -/
def simpleStart (c : Char) : Bool := ('A' ≤ c && c ≤ 'Z') || c = '_'

/-- Continuation class of the simple pattern: `[A-Z0-9_]`. -/
def simpleChar (c : Char) : Bool :=
  ('A' ≤ c && c ≤ 'Z') || ('0' ≤ c && c ≤ '9') || c = '_'

/-- Match the simple pattern at the front of the input. On success returns
the full matched token (braces included) and the remainder. -/
def matchSimple : List Char → Option (List Char × List Char)
  | c0 :: c :: rest =>
    if c0 = '{' && simpleStart c then
      match rest.dropWhile simpleChar with
      | '}' :: rest2 => some (c0 :: c :: (rest.takeWhile simpleChar ++ ['}']), rest2)
      | _ => none
    else none
  | _ => none

/-- One pass of `text.replace(detailedPattern, repl)`: scan left to right,
replacing each match (the replacement sees the full match, the `ID` group,
the quote and the `TXT` group) and copying other characters. The fuel is
instantiated with the length of the scanned list. -/
def replaceDetailedF (repl : List Char → String → Char → String → List Char) :
    Nat → List Char → List Char
  | 0, cs => cs
  | _ + 1, [] => []
  | fuel + 1, c :: cs =>
    match matchDetailed (c :: cs) with
    | some (i, q, v, rest) =>
        repl ((c :: cs).take ((c :: cs).length - rest.length)) i q v ++
          replaceDetailedF repl fuel rest
    | none => c :: replaceDetailedF repl fuel cs

/-- The HTML chip wrapper emitted by `renderMaskedHtml`. -/
def spanOpen : List Char := "<span class=\"mask-chip\">".data

def spanClose : List Char := "</span>".data

def wrapChip (m : List Char) : List Char := spanOpen ++ m ++ spanClose

/-- The detailed-pattern replacement of `renderMaskedHtml`: in
`placeholders` mode the `TXT` group (called `placeholder` in the code) is
emitted inside the chip, in `blocks` mode the full match is. -/
inductive RenderMode where
  | placeholders
  | blocks
deriving Repr, DecidableEq

def renderDetailedRepl (mode : RenderMode) (tok : List Char) (_i : String)
    (_q : Char) (v : String) : List Char :=
  match mode with
  | .placeholders => wrapChip v.data
  | .blocks => wrapChip tok

/-- `String.prototype.indexOf` (first occurrence; the code only calls it
when the needle occurs, so the absent case is irrelevant and mapped to 0). -/
def occursAt (needle hay : List Char) (i : Nat) : Bool :=
  needle.isPrefixOf (hay.drop i)

def jsIndexOf (hay needle : List Char) : Nat :=
  ((List.range (hay.length + 1)).find? (occursAt needle hay)).getD 0

/-- `String.prototype.lastIndexOf`, with the JavaScript `-1` for "absent". -/
def jsLastIndexOf (hay needle : List Char) : Int :=
  match ((List.range (hay.length + 1)).filter (occursAt needle hay)).getLast? with
  | some i => (i : Int)
  | none => -1

/-- The "already inside a chip" check of the simple-pattern callback:
`beforeMatch` is the prefix of the *first-pass output* up to the *first*
occurrence of the matched string (`result.indexOf(match)`), and the match
counts as inside a chip when the last `<span class="mask-chip">` in that
prefix is more recent than the last `</span>`. -/
def insideChip (full m : List Char) : Bool :=
  let before := full.take (jsIndexOf full m)
  jsLastIndexOf before spanOpen > jsLastIndexOf before spanClose

/-- The second pass of `renderMaskedHtml`: replace each simple-pattern
match by a chip unless `insideChip` says it already sits inside one.
`full` is the complete first-pass output the callback closes over. -/
def replaceSimpleF (full : List Char) : Nat → List Char → List Char
  | 0, cs => cs
  | _ + 1, [] => []
  | fuel + 1, c :: cs =>
    match matchSimple (c :: cs) with
    | some (m, rest) =>
        (if insideChip full m then m else wrapChip m) ++ replaceSimpleF full fuel rest
    | none => c :: replaceSimpleF full fuel cs

/-- `renderMaskedHtml`: detailed blocks first, then simple blocks with the
inside-a-chip check against the first-pass output. -/
def renderMaskedHtml (text : String) (mode : RenderMode) : String :=
  let p1 := replaceDetailedF (renderDetailedRepl mode) text.data.length text.data
  String.mk (replaceSimpleF p1 p1.length p1)

/-- `extractPlaceholdersFromMasked`: replace each detailed block by its
`TXT` group. -/
def extractPlaceholdersFromMasked (text : String) : String :=
  String.mk (replaceDetailedF (fun _ _ _ v => v.data) text.data.length text.data)

/-! ### The masking/demasking core

Modelled from the spec: the Placeholder Encoder (§4.3), the Demasking
Engine (§4.5), the token grammar (§4.1/§6) and the session mapping (§3)
live in the Python backend, which is not among the frontend sources; the
definitions below follow the spec's words. -/

/-- Decimal digit character for `d < 10`. -/
def digitChar : Nat → Char
  | 0 => '0' | 1 => '1' | 2 => '2' | 3 => '3' | 4 => '4'
  | 5 => '5' | 6 => '6' | 7 => '7' | 8 => '8' | 9 => '9'
  | _ => '*'

/-- Decimal digits of `n`, most significant first (empty for 0);
fuel-structural so that it evaluates in the kernel. -/
def natCharsAux : Nat → Nat → List Char
  | 0, _ => []
  | _ + 1, 0 => []
  | fuel + 1, n => natCharsAux fuel (n / 10) ++ [digitChar (n % 10)]

/-- Decimal rendering of a natural number. -/
def natChars (n : Nat) : List Char :=
  if n = 0 then ['0'] else natCharsAux (n + 1) n

/-- Modelled from the spec: a detected span reported by the external
detector — start offset and length against the original text, plus an
optional category tag (§4.3 input). -/
structure DetSpan where
  start : Nat
  len : Nat
  category : Option String
deriving Repr, DecidableEq

/-- The original substring a span covers. -/
def extractVal (t : List Char) (sp : DetSpan) : List Char :=
  (t.drop sp.start).take sp.len

/-- Modelled from the spec: encoder state — entities accumulated in
first-occurrence order plus the private monotonically increasing counter
for fresh identifiers (§4.3 steps 1–2, §5). -/
structure EncSt where
  acc : List SensitiveEntity
  counter : Nat
deriving Repr, DecidableEq

/-- Modelled from the spec: placeholder label generated for a freshly
detected entity — category tag (defaulting to `ENTITY`) plus the fresh
number, as in scenario-style labels `PERSON_1`. -/
def freshLabel (category : Option String) (n : Nat) : String :=
  String.mk ((category.getD "ENTITY").data ++ '_' :: natChars n)

/-- Modelled from the spec: encode one detected value (§4.3 steps 1–2 and
the by-value identity edge case): a value already seen in this call reuses
its entity; otherwise an exact dictionary `name` match reuses the
dictionary id and placeholder; otherwise a fresh numeric id is assigned
and the counter bumped. -/
def encStep (dict : List SensitiveEntity) (st : EncSt) (v : String)
    (category : Option String) : EncSt × SensitiveEntity :=
  match st.acc.find? (fun e => e.name = v) with
  | some e => (st, e)
  | none =>
    match dict.find? (fun d => d.name = v) with
    | some d =>
        let e : SensitiveEntity := ⟨d.id, v, d.placeholder, d.category⟩
        (⟨st.acc ++ [e], st.counter⟩, e)
    | none =>
        let e : SensitiveEntity :=
          ⟨String.mk (natChars st.counter), v, freshLabel category st.counter, category⟩
        (⟨st.acc ++ [e], st.counter + 1⟩, e)

/-- Modelled from the spec: encode the ordered list of detected values,
returning the final state and the entity chosen for each value in turn. -/
def encodeVals (dict : List SensitiveEntity) (st : EncSt) :
    List (String × Option String) → EncSt × List SensitiveEntity
  | [] => (st, [])
  | (v, cat) :: rest =>
    let (st1, e) := encStep dict st v cat
    let (st2, es) := encodeVals dict st1 rest
    (st2, e :: es)

/-- Modelled from the spec: overlap normalisation (§4.3 step 3) over the
detector's ascending-start span list — a span overlapping the previously
kept one is discarded (in particular a shorter, fully-contained span loses
to the longer span before it); spans with an empty substring were already
dropped. `endPos` is the end of the last kept span. -/
def sweepSpans (endPos : Nat) : List DetSpan → List DetSpan
  | [] => []
  | sp :: rest =>
    if sp.start < endPos then sweepSpans endPos rest
    else sp :: sweepSpans (sp.start + sp.len) rest

/-- Modelled from the spec: the detailed wire form `{ID=<id>, TXT='<v>'}`
(§4.1, scenario A uses the single quote). -/
def mkTokL (id : String) (v : List Char) : List Char :=
  (mkDetailedTok sq id (String.mk v)).data

/-- Modelled from the spec: the single left-to-right replacement pass
(§4.3 step 4) — offsets are taken against the original text, each
surviving span is replaced by its detailed token. -/
def buildMasked (t : List Char) (pos : Nat) :
    List (DetSpan × SensitiveEntity) → List Char
  | [] => t.drop pos
  | (sp, e) :: rest =>
    (t.drop pos).take (sp.start - pos) ++ mkTokL e.id (extractVal t sp) ++
      buildMasked t (sp.start + sp.len) rest

/-- Modelled from the spec: the Masking Orchestrator/Encoder output for one
field (§4.3): detector spans (ascending start offsets) are normalised,
encoded against the dictionary and substituted into the text. -/
def maskCore (t : String) (dict : List SensitiveEntity)
    (spans : List DetSpan) : MaskingResult :=
  let ns := sweepSpans 0 (spans.filter (fun sp => sp.len ≠ 0))
  let vals := ns.map (fun sp => (String.mk (extractVal t.data sp), sp.category))
  let (st, es) := encodeVals dict ⟨[], 1⟩ vals
  { maskedText := String.mk (buildMasked t.data 0 (ns.zip es))
    entitiesFound := st.acc
    processingTime := none }

/-- Modelled from the spec: the session mapping (§3) — a bidirectional
index `id → entity` and `name → entity` built from an entity list. -/
structure Mapping where
  byId : List (String × SensitiveEntity)
  byName : List (String × SensitiveEntity)
deriving Repr, DecidableEq

def mapOf (es : List SensitiveEntity) : Mapping :=
  ⟨es.map (fun e => (e.id, e)), es.map (fun e => (e.name, e))⟩

/-- Modelled from the spec: parse a detailed token (grammar §6:
`'{' 'ID' '=' ID ',' WS 'TXT' '=' QUOTE VALUE QUOTE WS? '}'`, the value
being any run without the chosen quote). Returns id, value and remainder. -/
def specMatchDetailed (cs : List Char) : Option (String × List Char × List Char) :=
  match stripLit idLit cs with
  | none => none
  | some cs1 =>
    if (cs1.takeWhile idChar).isEmpty then none
    else
      match cs1.dropWhile idChar with
      | ',' :: cs3 =>
        match stripLit txtLit (cs3.dropWhile jsWs) with
        | none => none
        | some cs4 =>
          match cs4 with
          | q :: cs5 =>
            if quoteChar q then
              match (cs5.dropWhile (fun c => c ≠ q)) with
              | q2 :: cs6 =>
                if q2 = q then
                  match closeBrace cs6 with
                  | some rest =>
                    some (String.mk (cs1.takeWhile idChar),
                      cs5.takeWhile (fun c => c ≠ q), rest)
                  | none => none
                else none
              | [] => none
            else none
          | [] => none
      | _ => none

/-- Modelled from the spec: parse a simple token `'{' [A-Z][A-Z0-9_]* '}'`
(§6); returns the bracket text and the remainder. -/
def specMatchSimple : List Char → Option (List Char × List Char)
  | c0 :: c :: rest =>
    if c0 = '{' && 'A' ≤ c && c ≤ 'Z' then
      match rest.dropWhile simpleChar with
      | '}' :: rest2 => some (c :: rest.takeWhile simpleChar, rest2)
      | _ => none
    else none
  | _ => none

/-- Modelled from the spec: the Demasking Engine's single left-to-right
pass (§4.5). A detailed token substitutes the mapped entity's `name`, or
its own embedded value when the id is unmapped; a simple token substitutes
the entity found under its bracket text, or stays unchanged; substituted
text is never re-scanned. Fuel-structural (fuel = input length). -/
def demaskF (m : Mapping) : Nat → List Char → List Char
  | 0, cs => cs
  | _ + 1, [] => []
  | fuel + 1, c :: cs =>
    match specMatchDetailed (c :: cs) with
    | some (i, v, rest) =>
      (match m.byId.find? (fun p => p.1 = i) with
       | some p => p.2.name.data
       | none => v) ++ demaskF m fuel rest
    | none =>
      match specMatchSimple (c :: cs) with
      | some (lbl, rest) =>
        (match m.byId.find? (fun p => p.1 = String.mk lbl) with
         | some p => p.2.name.data
         | none =>
           match m.byName.find? (fun p => p.1 = String.mk lbl) with
           | some p => p.2.name.data
           | none => '{' :: (lbl ++ ['}'])) ++ demaskF m fuel rest
      | none => c :: demaskF m fuel cs

/-- Modelled from the spec: `demask(text, mapping)` (§4.5/§6). -/
def demaskCore (text : String) (m : Mapping) : String :=
  String.mk (demaskF m text.data.length text.data)

/-- Well-formedness of a detector span list against a text, following the
masking pass: spans are in ascending order, disjoint, in bounds and
nonempty; the segments between them carry no `{` (so the unmasked text
cannot be mistaken for a token); the covered values carry no single quote
(the encoder's chosen quote character). -/
def maskWF (t : List Char) : Nat → List DetSpan → Bool
  | pos, [] => (t.drop pos).all (fun c => c ≠ '{')
  | pos, sp :: rest =>
    decide (pos ≤ sp.start) && decide (0 < sp.len) &&
    decide (sp.start + sp.len ≤ t.length) &&
    ((t.drop pos).take (sp.start - pos)).all (fun c => c ≠ '{') &&
    (extractVal t sp).all (fun c => c ≠ sq) &&
    maskWF t (sp.start + sp.len) rest

/-- Well-formedness of the dictionary: ids are nonempty, free of `,`/`}`,
not purely numeric (so they cannot collide with fresh numeric ids), and
pairwise distinct. -/
def dictWF (dict : List SensitiveEntity) : Bool :=
  dict.all (fun d =>
    (!d.id.data.isEmpty) &&
    d.id.data.all (fun c => c ≠ ',' && c ≠ '}') &&
    d.id.data.any (fun c => !c.isDigit)) &&
  decide ((dict.map (fun d => d.id)).Nodup)

/-- The simple-token wire grammar exactly as the claim words it:
`'{' [A-Z][A-Z0-9_]* '}'` — first character inside the braces an
uppercase letter. (Stated from the spec's words, for comparison with the
code's matcher.) -/
def claimSimpleGrammar (s : String) : Bool :=
  match s.data with
  | c0 :: c :: rest =>
    c0 = '{' && ('A' ≤ c && c ≤ 'Z') && !rest.isEmpty &&
      rest.dropLast.all simpleChar && (rest.getLast? == some '}')
  | _ => false

/-- The simple-token grammar the code actually implements:
`'{' [A-Z_][A-Z0-9_]* '}'` — the first character may also be `_`. -/
def amendedSimpleGrammar (s : String) : Bool :=
  match s.data with
  | c0 :: c :: rest =>
    c0 = '{' && simpleStart c && !rest.isEmpty &&
      rest.dropLast.all simpleChar && (rest.getLast? == some '}')
  | _ => false

/-- An entity id that the detailed grammar can carry: nonempty, no comma,
no closing brace. -/
def idOk (e : SensitiveEntity) : Prop :=
  e.id.data ≠ [] ∧ ∀ c ∈ e.id.data, c ≠ ',' ∧ c ≠ '}'

/-- Invariant of the encoder state: distinct names (one entity per value),
distinct ids, grammar-safe ids, every id either a fresh numeral below the
counter or a dictionary id with the matching name, and a positive counter. -/
def stInv (dict : List SensitiveEntity) (st : EncSt) : Prop :=
  (st.acc.map (fun e => e.name)).Nodup ∧
  (st.acc.map (fun e => e.id)).Nodup ∧
  (∀ e ∈ st.acc, idOk e) ∧
  (∀ e ∈ st.acc,
    (∃ j, 0 < j ∧ j < st.counter ∧ e.id.data = natChars j) ∨
    (∃ d ∈ dict, e.id = d.id ∧ e.name = d.name)) ∧
  0 < st.counter

/-! ### Parsing lemmas -/

theorem stripLit_self (p rest : List Char) : stripLit p (p ++ rest) = some rest := by
  induction p with
  | nil => rfl
  | cons a p ih => simp [stripLit, ih]

theorem takeWhile_append_eq {α : Type} {p : α → Bool} (xs : List α) (y : α)
    (ys : List α) (hxs : ∀ x ∈ xs, p x = true) (hy : p y = false) :
    (xs ++ y :: ys).takeWhile p = xs := by
  induction xs with
  | nil => simp [List.takeWhile_cons, hy]
  | cons a xs ih =>
    have ha : p a = true := hxs a (by simp)
    simp only [List.cons_append, List.takeWhile_cons, ha, if_true]
    rw [ih (fun x hx => hxs x (by simp [hx]))]

theorem dropWhile_append_eq {α : Type} {p : α → Bool} (xs : List α) (y : α)
    (ys : List α) (hxs : ∀ x ∈ xs, p x = true) (hy : p y = false) :
    (xs ++ y :: ys).dropWhile p = y :: ys := by
  induction xs with
  | nil => simp [List.dropWhile_cons, hy]
  | cons a xs ih =>
    have ha : p a = true := hxs a (by simp)
    simp only [List.cons_append, List.dropWhile_cons, ha, if_true]
    exact ih (fun x hx => hxs x (by simp [hx]))

theorem lazyValue_closed (q : Char) (v cs rest : List Char)
    (hv : ∀ c ∈ v, c ≠ q ∧ lineTerm c = false) (hc : closeBrace cs = some rest) :
    lazyValue q (v ++ q :: cs) = some (v, rest) := by
  induction v with
  | nil => simp [lazyValue, hc]
  | cons c v ih =>
    have h1 : c ≠ q := (hv c (by simp)).1
    have h2 : lineTerm c = false := (hv c (by simp)).2
    simp [lazyValue, h1, h2, ih (fun x hx => hv x (by simp [hx]))]

/-- The frontend detailed regex matches the canonical detailed token (and
stops exactly at its end) whenever the id is nonempty without `,`/`}` and
the value avoids the chosen quote and line terminators. -/
theorem matchDetailed_token (q : Char) (i v : String) (rest : List Char)
    (hq : quoteChar q = true) (hi : i.data ≠ [])
    (hic : ∀ c ∈ i.data, c ≠ ',' ∧ c ≠ '}')
    (hv : ∀ c ∈ v.data, c ≠ q ∧ lineTerm c = false) :
    matchDetailed ((mkDetailedTok q i v).data ++ rest) = some (i, q, v, rest) := by
  have hdata : (mkDetailedTok q i v).data ++ rest =
      idLit ++ (i.data ++ ',' :: ' ' :: (txtLit ++ q :: (v.data ++ q :: '}' :: rest))) := by
    simp [mkDetailedTok]
  have hall : ∀ c ∈ i.data, idChar c = true := fun c hc => by
    simp [idChar, (hic c hc).1, (hic c hc).2]
  have hie : (i.data).isEmpty = false := by
    cases hd : i.data with
    | nil => exact absurd hd hi
    | cons a l => rfl
  have hdw : List.dropWhile jsWs (' ' :: (txtLit ++ q :: (v.data ++ q :: '}' :: rest))) =
      txtLit ++ q :: (v.data ++ q :: '}' :: rest) := rfl
  have hclose : closeBrace ('}' :: rest) = some rest := rfl
  rw [hdata]
  unfold matchDetailed
  rw [stripLit_self]
  dsimp only
  rw [takeWhile_append_eq _ _ _ hall (by rfl), dropWhile_append_eq _ _ _ hall (by rfl)]
  simp only [hie, Bool.false_eq_true, if_false]
  rw [hdw, stripLit_self]
  simp only [hq, if_true]
  rw [lazyValue_closed q v.data ('}' :: rest) rest hv hclose]
  rfl

/-- A list not starting with `{` matches neither pattern. -/
theorem matchSimple_none_of_head (c : Char) (l : List Char) (h : c ≠ '{') :
    matchSimple (c :: l) = none := by
  cases l with
  | nil => rfl
  | cons c2 l2 => simp [matchSimple, h]

theorem matchDetailed_none_of_head (c : Char) (l : List Char) (h : c ≠ '{') :
    matchDetailed (c :: l) = none := by
  have hs : stripLit idLit (c :: l) = none := by
    simp [idLit, stripLit, h]
  simp [matchDetailed, hs]

theorem specMatchSimple_none_of_head (c : Char) (l : List Char) (h : c ≠ '{') :
    specMatchSimple (c :: l) = none := by
  cases l with
  | nil => rfl
  | cons c2 l2 => simp [specMatchSimple, h]

theorem specMatchDetailed_none_of_head (c : Char) (l : List Char) (h : c ≠ '{') :
    specMatchDetailed (c :: l) = none := by
  have hs : stripLit idLit (c :: l) = none := by
    simp [idLit, stripLit, h]
  simp [specMatchDetailed, hs]

theorem replaceDetailedF_nil (repl : List Char → String → Char → String → List Char)
    (fuel : Nat) : replaceDetailedF repl fuel [] = [] := by
  cases fuel <;> rfl

theorem replaceSimpleF_nil (full : List Char) (fuel : Nat) :
    replaceSimpleF full fuel [] = [] := by
  cases fuel <;> rfl

/-! ## Theorems -/

/-- C3 (counterexample): the demask surface exposed to callers does not
take a mapping — the request body of a concrete `demaskText` invocation
carries exactly one field, `maskedText`, and no `mapping` field, so the
id/name-to-entity mapping is not supplied by the caller. -/
theorem demaskRequest_no_mapping_cex :
    (demaskTextRequest "result text").map Prod.fst = ["maskedText"] ∧
    ((demaskTextRequest "result text").map Prod.fst).contains "mapping" = false := by
  decide

/-- C3 (amended): for every demask invocation, the request body sent by
`apiClient.demaskText` consists of the masked text alone; no mapping
argument exists in the surface, so the pairing text-to-mapping is
maintained outside the caller (server side), not passed explicitly. -/
theorem demaskRequest_only_maskedText (t : String) :
    (demaskTextRequest t).map Prod.fst = ["maskedText"] := rfl

/-- C8: after every successful dictionary mutation (add, update, delete),
the hook's `onSuccess` effects invalidate the cached sensitive-entities
query, so the next read observes the mutated server dictionary, whatever
was cached before. -/
theorem mutation_invalidates_entity_cache (st : EntityCache)
    (server2 : List SensitiveEntity) (e : SensitiveEntity) :
    (readEntities (applyEffects { st with server := server2 }
      (useAddSensitiveEntityOnSuccess e))).1 = server2 ∧
    (readEntities (applyEffects { st with server := server2 }
      (useUpdateSensitiveEntityOnSuccess e))).1 = server2 ∧
    (readEntities (applyEffects { st with server := server2 }
      useDeleteSensitiveEntityOnSuccess)).1 = server2 :=
  ⟨rfl, rfl, rfl⟩

/-- C9: whenever the server answers with a non-2xx status or with a body
whose `success` flag is `false`, the api pipeline produces a typed
`AppError` failure instead of resolving with the payload. -/
theorem api_error_is_typed_failure {α : Type} (resp : HttpResponse α)
    (axiosMessage : String) (axiosCode : Option String)
    (h : axiosStatusOk resp.status = false ∨ resp.data.success = some false) :
    ∃ e : AppError, apiOperation resp axiosMessage axiosCode = .error e := by
  unfold apiOperation
  by_cases hs : axiosStatusOk resp.status = true
  · have hb : resp.data.success = some false := by
      rcases h with h0 | h1
      · rw [hs] at h0; cases h0
      · exact h1
    rw [if_pos hs]
    unfold handleApiResponse
    rw [if_pos hb]
    exact ⟨_, rfl⟩
  · rw [if_neg hs]
    exact ⟨_, rfl⟩

/-- C9 (witness): a concrete 500 response is turned into an `AppError`. -/
theorem api_error_is_typed_failure_witness :
    (axiosStatusOk (500 : Nat) = false ∨
      (ApiData.mk (0 : Nat) none none none).success = some false) ∧
    ∃ e : AppError,
      apiOperation ⟨500, ⟨0, none, none, none⟩⟩ "Request failed with status code 500"
        (some "ERR_BAD_RESPONSE") = .error e :=
  ⟨Or.inl (by decide),
   api_error_is_typed_failure ⟨500, ⟨0, none, none, none⟩⟩
     "Request failed with status code 500" (some "ERR_BAD_RESPONSE")
     (Or.inl (by decide))⟩

/-- C10: whenever `maskText` succeeds, `entitiesFound` is the server's
list when present and the empty list when the server omitted or nulled
`entities_found` — never an absent value. -/
theorem maskText_entities_normalized (resp : HttpResponse MaskingApiResponse)
    (axiosMessage : String) (axiosCode : Option String) (res : MaskingResult)
    (h : maskText resp axiosMessage axiosCode = .ok res) :
    res.entitiesFound = (resp.data.value.entities_found).getD [] ∧
    (resp.data.value.entities_found = none → res.entitiesFound = []) := by
  unfold maskText apiOperation handleApiResponse at h
  by_cases hs : axiosStatusOk resp.status = true
  · rw [if_pos hs] at h
    by_cases hb : resp.data.success = some false
    · rw [if_pos hb] at h
      cases h
    · rw [if_neg hb] at h
      simp only [Except.map] at h
      have hres : maskTextConvert resp.data.value = res := by
        cases h; rfl
      subst hres
      refine ⟨?_, ?_⟩
      · cases hef : resp.data.value.entities_found <;>
          simp [maskTextConvert, jsOrList, hef]
      · intro hef
        simp [maskTextConvert, jsOrList, hef]
  · rw [if_neg hs] at h
    simp only [Except.map] at h
    cases h

/-- C10 (witness): a successful response with `entities_found` omitted
yields the empty entity list. -/
theorem maskText_entities_normalized_witness :
    maskText ⟨200, ⟨⟨"abc", none, none⟩, some true, none, none⟩⟩ "m" none =
      .ok ⟨"abc", [], none⟩ ∧
    (⟨"abc", [], none⟩ : MaskingResult).entitiesFound =
      ((⟨⟨"abc", none, none⟩, some true, none, none⟩ :
        ApiData MaskingApiResponse).value.entities_found).getD [] :=
  ⟨rfl,
   (maskText_entities_normalized ⟨200, ⟨⟨"abc", none, none⟩, some true, none, none⟩⟩
     "m" none ⟨"abc", [], none⟩ rfl).1⟩

/-- C5 (counterexample): both fields are non-blank, the query field's
detector fails while the context field's mask call succeeds — yet
`handleMaskText` leaves the context field's masked text unapplied (the
`Promise.all` rejection sends the whole handler to the catch block). -/
theorem handleMaskText_one_failure_blocks_other_cex :
    handleMaskText ⟨"Hello Ivan", "Bye Ivan", "", "", none⟩
        (.error "Detection failed")
        (.ok ⟨"Bye \x7bID=1, TXT='Ivan'\x7d", [⟨"1", "Ivan", "PERSON_1", none⟩], none⟩) =
      ⟨"Hello Ivan", "Bye Ivan", "", "", some "Detection failed"⟩ ∧
    (handleMaskText ⟨"Hello Ivan", "Bye Ivan", "", "", none⟩
        (.error "Detection failed")
        (.ok ⟨"Bye \x7bID=1, TXT='Ivan'\x7d", [⟨"1", "Ivan", "PERSON_1", none⟩], none⟩)
      ).maskedContextText ≠ "Bye \x7bID=1, TXT='Ivan'\x7d" := by
  constructor
  · rfl
  · decide

/-- C5 (amended): with both fields non-blank, `handleMaskText` is
all-or-nothing across the two fields: if either field's mask call fails,
neither field's `MaskingResult` is applied and only the error is recorded;
both masked texts are applied exactly when both calls succeed. -/
theorem handleMaskText_all_or_nothing (prev : AppStateM) (e : String)
    (r r2 : MaskingResult)
    (hq : jsTrim prev.queryText ≠ "") (hc : jsTrim prev.contextText ≠ "") :
    handleMaskText prev (.error e) (.ok r) = { prev with error := some e } ∧
    handleMaskText prev (.ok r) (.error e) = { prev with error := some e } ∧
    handleMaskText prev (.ok r) (.ok r2) =
      { prev with maskedQueryText := r.maskedText,
                  maskedContextText := r2.maskedText, error := none } := by
  refine ⟨?_, ?_, ?_⟩ <;>
    simp [handleMaskText, hq, hc, promiseAll, Except.map, List.foldl]

/-- C5 (witness): the amended behaviour at concrete inputs. -/
theorem handleMaskText_all_or_nothing_witness :
    jsTrim ("Hello Ivan" : String) ≠ "" ∧ jsTrim ("Bye Ivan" : String) ≠ "" ∧
    (handleMaskText ⟨"Hello Ivan", "Bye Ivan", "", "", none⟩ (.error "boom")
        (.ok ⟨"m1", [], none⟩) =
      ⟨"Hello Ivan", "Bye Ivan", "", "", some "boom"⟩ ∧
     handleMaskText ⟨"Hello Ivan", "Bye Ivan", "", "", none⟩ (.ok ⟨"m1", [], none⟩)
        (.error "boom") =
      ⟨"Hello Ivan", "Bye Ivan", "", "", some "boom"⟩ ∧
     handleMaskText ⟨"Hello Ivan", "Bye Ivan", "", "", none⟩ (.ok ⟨"m1", [], none⟩)
        (.ok ⟨"m2", [], none⟩) =
      ⟨"Hello Ivan", "Bye Ivan", "m1", "m2", none⟩) :=
  ⟨by decide, by decide,
   handleMaskText_all_or_nothing ⟨"Hello Ivan", "Bye Ivan", "", "", none⟩ "boom"
     ⟨"m1", [], none⟩ ⟨"m2", [], none⟩ (by decide) (by decide)⟩

/-- C6 (counterexample): a detailed token of the claimed form whose value
contains a newline (id `1`, quote `'`, value `a\nb` — no unescaped quote
in the value) is not recognised by the detailed-token regex at all: the
matcher fails and `extractPlaceholdersFromMasked` leaves the text
untouched, because `.` in the pattern does not match line terminators. -/
theorem detailed_token_newline_cex :
    ("\x7bID=1, TXT='a\nb'\x7d" : String) = mkDetailedTok sq "1" "a\nb" ∧
    matchDetailed ("\x7bID=1, TXT='a\nb'\x7d" : String).data = none ∧
    extractPlaceholdersFromMasked "\x7bID=1, TXT='a\nb'\x7d" =
      "\x7bID=1, TXT='a\nb'\x7d" := by
  refine ⟨rfl, by decide, ?_⟩
  decide

/-- C6 (amended): the detailed-token parser recognises every substring
`{ID=<id>, TXT=<q><value><q>}` — quote `'` or `"`, id nonempty without
`,` or `}`, value free of the chosen quote *and of line terminators* — as
one detailed token ending exactly at its closing brace, for any
continuation of the text. -/
theorem detailed_token_parsed (q : Char) (i v : String) (rest : List Char)
    (hq : quoteChar q = true) (hi : i.data ≠ [])
    (hic : ∀ c ∈ i.data, c ≠ ',' ∧ c ≠ '}')
    (hv : ∀ c ∈ v.data, c ≠ q ∧ lineTerm c = false) :
    matchDetailed ((mkDetailedTok q i v).data ++ rest) = some (i, q, v, rest) :=
  matchDetailed_token q i v rest hq hi hic hv

/-- C6 (witness): a double-quoted token whose value contains the other
quote character and a brace is parsed as one token. -/
theorem detailed_token_parsed_witness :
    (quoteChar '"' = true ∧ ("a7" : String).data ≠ [] ∧
      (∀ c ∈ ("a7" : String).data, c ≠ ',' ∧ c ≠ '}') ∧
      (∀ c ∈ ("x'y\x7d" : String).data, c ≠ '"' ∧ lineTerm c = false)) ∧
    matchDetailed ((mkDetailedTok '"' "a7" "x'y\x7d").data ++ [' ']) =
      some ("a7", '"', "x'y\x7d", [' ']) :=
  ⟨⟨by decide, by decide, by decide, by decide⟩,
   detailed_token_parsed '"' "a7" "x'y\x7d" [' ']
     (by decide) (by decide) (by decide) (by decide)⟩

/-- If `dropWhile` returns a nonempty list, the predicate fails on its
head. -/
theorem dropWhile_head_false {α : Type} (p : α → Bool) (l : List α) (d : α)
    (ds : List α) (h : l.dropWhile p = d :: ds) : p d = false := by
  induction l with
  | nil => cases h
  | cons a l ih =>
    rw [List.dropWhile_cons] at h
    by_cases ha : p a = true
    · rw [if_pos ha] at h
      exact ih h
    · rw [if_neg ha] at h
      cases h
      exact Bool.not_eq_true _ ▸ ha

/-- C7 (counterexample): `{_A}` does not match the claimed wire grammar
(its first inner character is `_`, not an uppercase letter), yet the
code's simple-token regex matches it in full and `renderMaskedHtml` wraps
it as a token. -/
theorem simple_token_underscore_cex :
    claimSimpleGrammar "\x7b_A\x7d" = false ∧
    matchSimple ("\x7b_A\x7d" : String).data = some (("\x7b_A\x7d" : String).data, []) ∧
    renderMaskedHtml "\x7b_A\x7d" .blocks = "<span class=\"mask-chip\">\x7b_A\x7d</span>" := by
  refine ⟨by decide, by decide, ?_⟩
  decide

/-- C7 (amended): a bracketed string is recognised as a simple token (in
its entirety) exactly when it matches `'{' [A-Z_][A-Z0-9_]* '}'` — the
first character inside the braces an uppercase letter *or an underscore*,
the rest uppercase letters, digits or underscores. -/
theorem simple_token_grammar (s : String) :
    matchSimple s.data = some (s.data, []) ↔ amendedSimpleGrammar s = true := by
  obtain ⟨data⟩ := s
  show matchSimple data = some (data, []) ↔ amendedSimpleGrammar ⟨data⟩ = true
  constructor
  · intro h
    cases data with
    | nil => exact absurd h (by simp [matchSimple])
    | cons c0 tail =>
      cases tail with
      | nil => exact absurd h (by simp [matchSimple])
      | cons c rest =>
        rw [matchSimple] at h
        by_cases hok : (c0 = '{' && simpleStart c) = true
        · rw [if_pos hok] at h
          cases hdw : rest.dropWhile simpleChar with
          | nil =>
            rw [hdw] at h
            cases h
          | cons d ds =>
            rw [hdw] at h
            by_cases hdb : d = '}'
            · subst hdb
              have hinj := Option.some.inj h
              have h2 : ds = [] := congrArg Prod.snd hinj
              have h1 : c0 :: c :: (rest.takeWhile simpleChar ++ ['}']) =
                  c0 :: c :: rest := congrArg Prod.fst hinj
              have hrest : rest.takeWhile simpleChar ++ ['}'] = rest := by
                injection h1 with _ h1a
                injection h1a with _ h1b
              rw [Bool.and_eq_true] at hok
              obtain ⟨hc0, hcs⟩ := hok
              have hc0 : c0 = '{' := of_decide_eq_true hc0
              subst hc0
              simp only [amendedSimpleGrammar]
              rw [← hrest]
              simp only [Bool.and_eq_true, decide_eq_true_eq, List.dropLast_concat,
                List.getLast?_concat, beq_iff_eq, Bool.not_eq_true',
                List.isEmpty_eq_false]
              refine ⟨⟨⟨⟨trivial, hcs⟩, by simp⟩, ?_⟩, trivial⟩
              exact List.all_eq_true.mpr fun x hx => List.mem_takeWhile_imp hx
            · exfalso
              have : (match d :: ds with
                  | '}' :: rest2 =>
                    some (c0 :: c :: (rest.takeWhile simpleChar ++ ['}']), rest2)
                  | _ => none) = none := by
                cases ds <;> simp [hdb]
              rw [this] at h
              cases h
        · rw [if_neg hok] at h
          cases h
  · intro h
    cases data with
    | nil => exact absurd h (by simp [amendedSimpleGrammar])
    | cons c0 tail =>
      cases tail with
      | nil => exact absurd h (by simp [amendedSimpleGrammar])
      | cons c rest =>
        simp only [amendedSimpleGrammar, Bool.and_eq_true, decide_eq_true_eq,
          Bool.not_eq_true', List.isEmpty_eq_false, beq_iff_eq] at h
        obtain ⟨⟨⟨⟨hc0, hcs⟩, hne⟩, hall⟩, hlast⟩ := h
        subst hc0
        have hlast2 : rest.getLast hne = '}' := by
          have := List.getLast?_eq_getLast_of_ne_nil hne
          rw [this] at hlast
          exact Option.some.inj hlast
        have hdecomp : rest.dropLast ++ ['}'] = rest := by
          rw [← hlast2]
          exact List.dropLast_append_getLast hne
        have hallm : ∀ x ∈ rest.dropLast, simpleChar x = true :=
          List.all_eq_true.mp hall
        rw [matchSimple]
        rw [if_pos (by simp [hcs])]
        rw [← hdecomp]
        rw [dropWhile_append_eq _ _ _ hallm (by rfl),
          takeWhile_append_eq _ _ _ hallm (by rfl)]
        rfl

/-- Every member of a concretely brace-free list differs from `{`. -/
theorem ne_brace_of_all (l : List Char) (hl : l.all (fun c => c ≠ '\x7b') = true)
    (c : Char) (hc : c ∈ l) : c ≠ '\x7b' := by
  have := List.all_eq_true.mp hl c hc
  simpa using this

theorem replaceSimpleF_no_match (full : List Char) :
    ∀ (fuel : Nat) (cs : List Char), (∀ n, matchSimple (cs.drop n) = none) →
      replaceSimpleF full fuel cs = cs := by
  intro fuel
  induction fuel with
  | zero => intro cs _; rfl
  | succ fuel ih =>
    intro cs h
    cases cs with
    | nil => rfl
    | cons c cs2 =>
      have h0 : matchSimple (c :: cs2) = none := h 0
      simp only [replaceSimpleF, h0]
      congr 1
      exact ih cs2 (fun n => by simpa [List.drop_succ_cons] using h (n + 1))

theorem noBrace_no_simple (cs : List Char) (h : ∀ c ∈ cs, c ≠ '{') (n : Nat) :
    matchSimple (cs.drop n) = none := by
  cases hd : cs.drop n with
  | nil => rfl
  | cons c l =>
    have hc : c ∈ cs := (List.drop_subset n cs) (hd ▸ List.mem_cons_self c l)
    exact matchSimple_none_of_head c l (h c hc)

/-- In a blocks-mode first-pass output the only brace opens the detailed
token's `{ID=` prefix, which the simple pattern cannot match (it stops at
`=`): no position of `xs ++ {ID= ++ ys` matches the simple pattern when
`xs` and `ys` are brace-free. -/
theorem no_simple_in_blocks (ys : List Char) (hys : ∀ c ∈ ys, c ≠ '{') :
    ∀ (xs : List Char), (∀ c ∈ xs, c ≠ '{') →
      ∀ n, matchSimple ((xs ++ '{' :: 'I' :: 'D' :: '=' :: ys).drop n) = none := by
  intro xs
  induction xs with
  | nil =>
    intro _ n
    cases n with
    | zero => rfl
    | succ n1 =>
      cases n1 with
      | zero => rfl
      | succ n2 =>
        cases n2 with
        | zero => rfl
        | succ n3 =>
          cases n3 with
          | zero => exact matchSimple_none_of_head '=' ys (by decide)
          | succ n4 =>
            simpa [List.drop_succ_cons] using noBrace_no_simple ys hys n4
  | cons x xs ih =>
    intro hxs n
    cases n with
    | zero => exact matchSimple_none_of_head x _ (hxs x (by simp))
    | succ n1 =>
      simpa [List.drop_succ_cons] using
        ih (fun c hc => hxs c (by simp [hc])) n1

theorem replaceDetailedF_match (repl : List Char → String → Char → String → List Char)
    (fuel : Nat) (c : Char) (cs : List Char) (i : String) (q : Char) (v : String)
    (rest : List Char) (h : matchDetailed (c :: cs) = some (i, q, v, rest)) :
    replaceDetailedF repl (fuel + 1) (c :: cs) =
      repl ((c :: cs).take ((c :: cs).length - rest.length)) i q v ++
        replaceDetailedF repl fuel rest := by
  simp only [replaceDetailedF, h]

/-- When the whole input is one detailed match, the first pass is exactly
one replacement. -/
theorem replaceDetailed_whole (repl : List Char → String → Char → String → List Char)
    (td : List Char) (i : String) (q : Char) (v : String)
    (h : matchDetailed td = some (i, q, v, [])) (hne : td ≠ []) :
    replaceDetailedF repl td.length td = repl td i q v := by
  cases td with
  | nil => exact absurd rfl hne
  | cons c cs =>
    rw [List.length_cons]
    rw [replaceDetailedF_match repl cs.length c cs i q v [] h]
    rw [replaceDetailedF_nil]
    simp

/-- C2 (counterexample): for the detailed token `{ID=1, TXT='Bob'}` —
whose embedded `TXT` value is `Bob` — `placeholders` mode emits exactly
that embedded original value inside the chip, not a display label such as
the entity `{id: "1", placeholder: "PERSON_1"}` would provide. -/
theorem placeholders_mode_emits_value_cex :
    matchDetailed ("\x7bID=1, TXT='Bob'\x7d" : String).data =
      some ("1", sq, "Bob", []) ∧
    renderMaskedHtml "\x7bID=1, TXT='Bob'\x7d" .placeholders =
      "<span class=\"mask-chip\">Bob</span>" ∧
    renderMaskedHtml "\x7bID=1, TXT='Bob'\x7d" .placeholders ≠
      "<span class=\"mask-chip\">PERSON_1</span>" := by
  refine ⟨by decide, ?_, ?_⟩ <;> decide

/-- C2 (amended): for a well-formed detailed token, `placeholders` mode
emits the token's embedded `TXT` value (the code's display substitute)
wrapped in a `mask-chip` span, while `blocks` mode emits the full detailed
form unchanged inside the span. -/
theorem render_token_modes (q : Char) (i v : String)
    (hq : quoteChar q = true) (hi : i.data ≠ [])
    (hic : ∀ c ∈ i.data, c ≠ ',' ∧ c ≠ '}' ∧ c ≠ '{')
    (hv : ∀ c ∈ v.data, c ≠ q ∧ lineTerm c = false ∧ c ≠ '{') :
    renderMaskedHtml (mkDetailedTok q i v) .placeholders =
      String.mk (wrapChip v.data) ∧
    renderMaskedHtml (mkDetailedTok q i v) .blocks =
      String.mk (wrapChip (mkDetailedTok q i v).data) := by
  have hq' : q ≠ '{' := by
    have := hq
    simp only [quoteChar, Bool.or_eq_true, decide_eq_true_eq] at this
    rcases this with h | h <;> subst h <;> decide
  have hmd : matchDetailed ((mkDetailedTok q i v).data) = some (i, q, v, []) := by
    have := matchDetailed_token q i v [] hq hi
      (fun c hc => ⟨(hic c hc).1, (hic c hc).2.1⟩)
      (fun c hc => ⟨(hv c hc).1, (hv c hc).2.1⟩)
    simpa using this
  have hne : (mkDetailedTok q i v).data ≠ [] := by simp [mkDetailedTok, idLit]
  constructor
  · show String.mk (replaceSimpleF _ _ _) = _
    rw [replaceDetailed_whole _ _ _ _ _ hmd hne]
    show String.mk (replaceSimpleF (wrapChip v.data) _ (wrapChip v.data)) = _
    have hnb : ∀ c ∈ wrapChip v.data, c ≠ '\x7b' := by
      intro c hc
      rcases List.mem_append.mp hc with h | h
      · rcases List.mem_append.mp h with h | h
        · exact ne_brace_of_all spanOpen (by decide) c h
        · exact (hv c h).2.2
      · exact ne_brace_of_all spanClose (by decide) c h
    rw [replaceSimpleF_no_match (wrapChip v.data) _ (wrapChip v.data)
      (noBrace_no_simple (wrapChip v.data) hnb)]
  · show String.mk (replaceSimpleF _ _ _) = _
    rw [replaceDetailed_whole _ _ _ _ _ hmd hne]
    show String.mk (replaceSimpleF (wrapChip (mkDetailedTok q i v).data) _
      (wrapChip (mkDetailedTok q i v).data)) = _
    have hshape : wrapChip (mkDetailedTok q i v).data =
        spanOpen ++ '{' :: 'I' :: 'D' :: '=' ::
          (i.data ++ ',' :: ' ' :: (txtLit ++ q :: (v.data ++ q :: '}' :: spanClose))) := by
      simp [wrapChip, mkDetailedTok, idLit]
    have hys : ∀ c ∈ i.data ++ ',' :: ' ' ::
        (txtLit ++ q :: (v.data ++ q :: '}' :: spanClose)), c ≠ '\x7b' := by
      intro c hc
      rcases List.mem_append.mp hc with h | h
      · exact (hic c h).2.2
      · rcases List.mem_cons.mp h with h | h
        · subst h; decide
        · rcases List.mem_cons.mp h with h | h
          · subst h; decide
          · rcases List.mem_append.mp h with h | h
            · exact ne_brace_of_all txtLit (by decide) c h
            · rcases List.mem_cons.mp h with h | h
              · subst h; exact hq'
              · rcases List.mem_append.mp h with h | h
                · exact (hv c h).2.2
                · rcases List.mem_cons.mp h with h | h
                  · subst h; exact hq'
                  · rcases List.mem_cons.mp h with h | h
                    · subst h; decide
                    · exact ne_brace_of_all spanClose (by decide) c h
    have hxs : ∀ c ∈ spanOpen, c ≠ '{' := by decide
    rw [replaceSimpleF_no_match _ _ _ (fun n => by
      rw [hshape]
      exact no_simple_in_blocks _ hys spanOpen hxs n)]

/-- C2 (witness): the concrete token `{ID=1, TXT='Bob'}` in both modes. -/
theorem render_token_modes_witness :
    (quoteChar sq = true ∧ ("1" : String).data ≠ [] ∧
      (∀ c ∈ ("1" : String).data, c ≠ ',' ∧ c ≠ '}' ∧ c ≠ '{') ∧
      (∀ c ∈ ("Bob" : String).data, c ≠ sq ∧ lineTerm c = false ∧ c ≠ '{')) ∧
    (renderMaskedHtml (mkDetailedTok sq "1" "Bob") .placeholders =
      String.mk (wrapChip ("Bob" : String).data) ∧
     renderMaskedHtml (mkDetailedTok sq "1" "Bob") .blocks =
      String.mk (wrapChip (mkDetailedTok sq "1" "Bob").data)) :=
  ⟨⟨by decide, by decide, by decide, by decide⟩,
   render_token_modes sq "1" "Bob" (by decide) (by decide) (by decide) (by decide)⟩

/-- C4 (failing input): in `{FOO} {ID=1, TXT='{FOO}'}` the second `{FOO}`
lies inside the detailed token's value, and after the first pass it sits
inside an already-rendered `mask-chip` span. The inside-a-span check uses
`result.indexOf(match)`, which finds the *first* occurrence — the outer
`{FOO}`, which is not inside a span — so the inner occurrence is wrapped
as a separate simple token (first conjunct), instead of being left
untouched as the non-overlap claim and the code's own comment require
(second conjunct). -/
theorem inner_simple_token_rewrapped_bug :
    renderMaskedHtml "\x7bFOO\x7d \x7bID=1, TXT='\x7bFOO\x7d'\x7d" .blocks =
      ("<span class=\"mask-chip\">\x7bFOO\x7d</span> " ++
       "<span class=\"mask-chip\">\x7bID=1, " ++
       "TXT='<span class=\"mask-chip\">\x7bFOO\x7d</span>'\x7d</span>") ∧
    renderMaskedHtml "\x7bFOO\x7d \x7bID=1, TXT='\x7bFOO\x7d'\x7d" .blocks ≠
      ("<span class=\"mask-chip\">\x7bFOO\x7d</span> " ++
       "<span class=\"mask-chip\">\x7bID=1, TXT='\x7bFOO\x7d'\x7d</span>") := by
  refine ⟨?_, ?_⟩ <;> decide

/-! ### Properties of the decimal rendering used for fresh identifiers -/

theorem natCharsAux_zero (fuel : Nat) : natCharsAux fuel 0 = [] := by
  cases fuel <;> rfl

theorem natCharsAux_succ (fuel n : Nat) (hn : n ≠ 0) :
    natCharsAux (fuel + 1) n = natCharsAux fuel (n / 10) ++ [digitChar (n % 10)] := by
  cases n with
  | zero => exact absurd rfl hn
  | succ k => rfl

theorem natCharsAux_nil (fuel n : Nat) (hf : 0 < fuel)
    (h : natCharsAux fuel n = []) : n = 0 := by
  by_contra hn
  obtain ⟨f, rfl⟩ : ∃ f, fuel = f + 1 := ⟨fuel - 1, by omega⟩
  rw [natCharsAux_succ f n hn] at h
  simp at h

theorem natCharsAux_digits : ∀ (fuel n : Nat), ∀ c ∈ natCharsAux fuel n,
    c.isDigit = true := by
  intro fuel
  induction fuel with
  | zero => intro n c hc; simp [natCharsAux] at hc
  | succ fuel ih =>
    intro n c hc
    by_cases hn : n = 0
    · subst hn; simp [natCharsAux] at hc
    · rw [natCharsAux_succ fuel n hn] at hc
      rcases List.mem_append.mp hc with h | h
      · exact ih (n / 10) c h
      · have hd : ∀ d, d < 10 → (digitChar d).isDigit = true := by decide
        rcases List.mem_singleton.mp h with rfl
        exact hd (n % 10) (Nat.mod_lt n (by omega))

theorem natChars_ne_nil (n : Nat) : natChars n ≠ [] := by
  unfold natChars
  by_cases hn : n = 0
  · simp [hn]
  · rw [if_neg hn, natCharsAux_succ n n hn]
    simp

theorem natChars_digits (n : Nat) : ∀ c ∈ natChars n, c.isDigit = true := by
  intro c hc
  unfold natChars at hc
  by_cases hn : n = 0
  · rw [if_pos hn] at hc
    rcases List.mem_singleton.mp hc with rfl
    decide
  · rw [if_neg hn] at hc
    exact natCharsAux_digits (n + 1) n c hc

theorem append_singleton_inj {α : Type} {xs ys : List α} {x y : α}
    (h : xs ++ [x] = ys ++ [y]) : xs = ys ∧ x = y := by
  have hrev := congrArg List.reverse h
  simp only [List.reverse_append, List.reverse_singleton, List.singleton_append] at hrev
  obtain ⟨h1, h2⟩ := List.cons.inj hrev
  exact ⟨by simpa using congrArg List.reverse h2, h1⟩

theorem natCharsAux_inj : ∀ (a : Nat), ∀ (b f1 f2 : Nat), a ≤ f1 → b ≤ f2 →
    natCharsAux f1 a = natCharsAux f2 b → a = b := by
  intro a
  induction a using Nat.strong_induction_on with
  | _ a ih =>
    intro b f1 f2 ha hb h
    by_cases ha0 : a = 0
    · subst ha0
      rw [natCharsAux_zero] at h
      by_cases hb0 : b = 0
      · omega
      · obtain ⟨g2, rfl⟩ : ∃ g, f2 = g + 1 := ⟨f2 - 1, by omega⟩
        rw [natCharsAux_succ g2 b hb0] at h
        simp at h
    · by_cases hb0 : b = 0
      · subst hb0
        obtain ⟨g1, rfl⟩ : ∃ g, f1 = g + 1 := ⟨f1 - 1, by omega⟩
        rw [natCharsAux_succ g1 a ha0, natCharsAux_zero] at h
        simp at h
      · obtain ⟨g1, rfl⟩ : ∃ g, f1 = g + 1 := ⟨f1 - 1, by omega⟩
        obtain ⟨g2, rfl⟩ : ∃ g, f2 = g + 1 := ⟨f2 - 1, by omega⟩
        rw [natCharsAux_succ g1 a ha0, natCharsAux_succ g2 b hb0] at h
        obtain ⟨hcore, hdig⟩ := append_singleton_inj h
        have hdigeq : a % 10 = b % 10 := by
          have hdd : ∀ x < 10, ∀ y < 10, digitChar x = digitChar y → x = y := by
            decide
          exact hdd _ (Nat.mod_lt a (by omega)) _ (Nat.mod_lt b (by omega)) hdig
        have hdiv : a / 10 = b / 10 := by
          refine ih (a / 10) (Nat.div_lt_self (by omega) (by omega)) (b / 10) g1 g2
            ?_ ?_ hcore
          · have := Nat.div_lt_self (show 0 < a by omega) (show 1 < 10 by omega)
            omega
          · have := Nat.div_lt_self (show 0 < b by omega) (show 1 < 10 by omega)
            omega
        have h10a := Nat.div_add_mod a 10
        have h10b := Nat.div_add_mod b 10
        omega

theorem natChars_inj (a b : Nat) (h : natChars a = natChars b) : a = b := by
  unfold natChars at h
  by_cases ha0 : a = 0
  · by_cases hb0 : b = 0
    · omega
    · rw [if_pos ha0, if_neg hb0, natCharsAux_succ b b hb0] at h
      have h2 : ([] : List Char) ++ ['0'] =
          natCharsAux b (b / 10) ++ [digitChar (b % 10)] := by simpa using h
      obtain ⟨hcore, hdig⟩ := append_singleton_inj h2
      have hdd : ∀ x < 10, digitChar x = '0' → x = 0 := by decide
      have : b % 10 = 0 := hdd _ (Nat.mod_lt b (by omega)) hdig.symm
      have hb10 : b / 10 = 0 := natCharsAux_nil b (b / 10) (by omega) hcore.symm
      omega
  · by_cases hb0 : b = 0
    · rw [if_neg ha0, if_pos hb0, natCharsAux_succ a a ha0] at h
      have h2 : natCharsAux a (a / 10) ++ [digitChar (a % 10)] =
          ([] : List Char) ++ ['0'] := by simpa using h
      obtain ⟨hcore, hdig⟩ := append_singleton_inj h2
      have hdd : ∀ x < 10, digitChar x = '0' → x = 0 := by decide
      have : a % 10 = 0 := hdd _ (Nat.mod_lt a (by omega)) hdig
      have ha10 : a / 10 = 0 := natCharsAux_nil a (a / 10) (by omega) hcore
      omega
    · rw [if_neg ha0, if_neg hb0] at h
      exact natCharsAux_inj a b (a + 1) (b + 1) (by omega) (by omega) h

/-! ### Encoder invariants -/

theorem dictWF_parts (dict : List SensitiveEntity) (hd : dictWF dict = true) :
    (∀ d ∈ dict, d.id.data ≠ [] ∧ (∀ c ∈ d.id.data, c ≠ ',' ∧ c ≠ '}') ∧
      ∃ c ∈ d.id.data, c.isDigit = false) ∧
    (dict.map (fun d => d.id)).Nodup := by
  unfold dictWF at hd
  rw [Bool.and_eq_true] at hd
  obtain ⟨h1, h2⟩ := hd
  constructor
  · intro d hdm
    have hall := List.all_eq_true.mp h1 d hdm
    rw [Bool.and_eq_true, Bool.and_eq_true] at hall
    obtain ⟨⟨ha, hb⟩, hc⟩ := hall
    refine ⟨?_, ?_, ?_⟩
    · rw [Bool.not_eq_true', List.isEmpty_eq_false] at ha
      exact ha
    · intro c hcm
      have := List.all_eq_true.mp hb c hcm
      rw [Bool.and_eq_true] at this
      exact ⟨by simpa using this.1, by simpa using this.2⟩
    · obtain ⟨c, hcm, hcd⟩ := List.any_eq_true.mp hc
      exact ⟨c, hcm, by simpa using hcd⟩
  · exact of_decide_eq_true h2

/-- A purely numeric fresh id never equals a dictionary id that contains a
non-digit. -/
theorem fresh_id_ne_dict (j : Nat) (l : List Char)
    (hnd : ∃ c ∈ l, c.isDigit = false) : natChars j ≠ l := by
  intro h
  obtain ⟨c, hcm, hcd⟩ := hnd
  rw [← h] at hcm
  rw [natChars_digits j c hcm] at hcd
  cases hcd

theorem digit_ne_comma_brace (c : Char) (h : c.isDigit = true) :
    c ≠ ',' ∧ c ≠ '}' := by
  constructor <;> intro heq <;> subst heq <;> cases h

/-- `encStep` preserves the state invariant; the entity it returns carries
the value as its name, is a member of the new accumulator, and the
accumulator only grows. -/
theorem encStep_inv (dict : List SensitiveEntity) (hd : dictWF dict = true)
    (st : EncSt) (v : String) (cat : Option String) (hst : stInv dict st) :
    stInv dict (encStep dict st v cat).1 ∧
    (encStep dict st v cat).2.name = v ∧
    (encStep dict st v cat).2 ∈ (encStep dict st v cat).1.acc ∧
    (∀ e ∈ st.acc, e ∈ (encStep dict st v cat).1.acc) ∧
    st.counter ≤ (encStep dict st v cat).1.counter := by
  obtain ⟨hnames, hids, hidok, hsrc, hcnt⟩ := hst
  obtain ⟨hdict1, hdictids⟩ := dictWF_parts dict hd
  unfold encStep
  cases hfind : st.acc.find? (fun e => e.name = v) with
  | some e =>
    dsimp only
    have hem : e ∈ st.acc := List.mem_of_find?_eq_some hfind
    have hev : e.name = v := by simpa using List.find?_some hfind
    exact ⟨⟨hnames, hids, hidok, hsrc, hcnt⟩, hev, hem, fun x hx => hx, le_refl _⟩
  | none =>
    have hnone : ∀ x ∈ st.acc, x.name ≠ v := by
      intro x hx
      have := List.find?_eq_none.mp hfind x hx
      simpa using this
    cases hdfind : dict.find? (fun d => d.name = v) with
    | some d =>
      dsimp only
      have hdm : d ∈ dict := List.mem_of_find?_eq_some hdfind
      have hdv : d.name = v := by simpa using List.find?_some hdfind
      obtain ⟨hdne, hdchars, hdnondigit⟩ := hdict1 d hdm
      have hidnew : ∀ e ∈ st.acc, e.id ≠ d.id := by
        intro e hem heq
        rcases hsrc e hem with ⟨j, _, _, hjd⟩ | ⟨d2, hd2m, hid2, hname2⟩
        · exact fresh_id_ne_dict j d.id.data hdnondigit (hjd ▸ congrArg String.data heq)
        · have : d2 = d :=
            List.inj_on_of_nodup_map hdictids hd2m hdm (hid2 ▸ heq)
          exact hnone e hem (hname2.trans (this ▸ hdv))
      refine ⟨⟨?_, ?_, ?_, ?_, hcnt⟩, rfl, by simp, fun x hx => by simp [hx], le_refl _⟩
      · rw [List.map_append, List.nodup_append]
        exact ⟨hnames, by simp, by
          intro a ha hb
          simp only [List.map_cons, List.map_nil, List.mem_singleton] at hb
          obtain ⟨e, hem, hev⟩ := List.mem_map.mp ha
          exact hnone e hem (by rw [hev, hb])⟩
      · rw [List.map_append, List.nodup_append]
        exact ⟨hids, by simp, by
          intro a ha hb
          simp only [List.map_cons, List.map_nil, List.mem_singleton] at hb
          obtain ⟨e, hem, hev⟩ := List.mem_map.mp ha
          exact hidnew e hem (by rw [hev, hb])⟩
      · intro e hem
        rcases List.mem_append.mp hem with h | h
        · exact hidok e h
        · rcases List.mem_singleton.mp h with rfl
          exact ⟨hdne, hdchars⟩
      · intro e hem
        rcases List.mem_append.mp hem with h | h
        · exact hsrc e h
        · rcases List.mem_singleton.mp h with rfl
          exact Or.inr ⟨d, hdm, rfl, hdv.symm⟩
    | none =>
      dsimp only
      have hidnew : ∀ e ∈ st.acc, e.id ≠ String.mk (natChars st.counter) := by
        intro e hem heq
        rcases hsrc e hem with ⟨j, _, hjlt, hjd⟩ | ⟨d2, hd2m, hid2, _⟩
        · have : natChars j = natChars st.counter := by
            rw [← hjd, heq]
          have := natChars_inj j st.counter this
          omega
        · obtain ⟨_, _, hnd⟩ := hdict1 d2 hd2m
          exact fresh_id_ne_dict st.counter d2.id.data hnd
            (by rw [← hid2, heq])
      refine ⟨⟨?_, ?_, ?_, ?_, by show 0 < st.counter + 1; omega⟩, rfl, by simp,
        fun x hx => by simp [hx], by show st.counter ≤ st.counter + 1; omega⟩
      · rw [List.map_append, List.nodup_append]
        exact ⟨hnames, by simp, by
          intro a ha hb
          simp only [List.map_cons, List.map_nil, List.mem_singleton] at hb
          obtain ⟨e, hem, hev⟩ := List.mem_map.mp ha
          exact hnone e hem (by rw [hev, hb])⟩
      · rw [List.map_append, List.nodup_append]
        exact ⟨hids, by simp, by
          intro a ha hb
          simp only [List.map_cons, List.map_nil, List.mem_singleton] at hb
          obtain ⟨e, hem, hev⟩ := List.mem_map.mp ha
          exact hidnew e hem (by rw [hev, hb])⟩
      · intro e hem
        rcases List.mem_append.mp hem with h | h
        · exact hidok e h
        · rcases List.mem_singleton.mp h with rfl
          refine ⟨by simpa using natChars_ne_nil st.counter, ?_⟩
          intro c hcm
          exact digit_ne_comma_brace c (natChars_digits st.counter c (by simpa using hcm))
      · intro e hem
        rcases List.mem_append.mp hem with h | h
        · rcases hsrc e h with ⟨j, hj0, hjlt, hjd⟩ | hdict
          · exact Or.inl ⟨j, hj0, by show j < st.counter + 1; omega, hjd⟩
          · exact Or.inr hdict
        · rcases List.mem_singleton.mp h with rfl
          exact Or.inl ⟨st.counter, hcnt, by show st.counter < st.counter + 1; omega, rfl⟩

/-- `encodeVals` preserves the invariant; the returned per-value entities
carry their values as names and all live in the final accumulator. -/
theorem encodeVals_inv (dict : List SensitiveEntity) (hd : dictWF dict = true) :
    ∀ (vals : List (String × Option String)) (st : EncSt), stInv dict st →
    stInv dict (encodeVals dict st vals).1 ∧
    (encodeVals dict st vals).2.length = vals.length ∧
    (∀ e ∈ st.acc, e ∈ (encodeVals dict st vals).1.acc) ∧
    (∀ p ∈ vals.zip (encodeVals dict st vals).2,
      p.2.name = p.1.1 ∧ p.2 ∈ (encodeVals dict st vals).1.acc) := by
  intro vals
  induction vals with
  | nil =>
    intro st hst
    exact ⟨hst, rfl, fun e he => he, by simp⟩
  | cons vc rest ih =>
    intro st hst
    obtain ⟨v, cat⟩ := vc
    obtain ⟨hst1, hname, hmem, hmono, _⟩ := encStep_inv dict hd st v cat hst
    rcases hes : encStep dict st v cat with ⟨st1, e⟩
    rw [hes] at hst1 hname hmem hmono
    obtain ⟨hst2, hlen, hmono2, hzip⟩ := ih st1 hst1
    rcases hev : encodeVals dict st1 rest with ⟨st2, es⟩
    rw [hev] at hst2 hlen hmono2 hzip
    have hunfold : encodeVals dict st ((v, cat) :: rest) = (st2, e :: es) := by
      unfold encodeVals
      rw [hes]
      dsimp only
      rw [hev]
    rw [hunfold]
    refine ⟨hst2, by simpa using hlen, fun x hx => hmono2 _ (hmono _ hx), ?_⟩
    intro p hp
    rcases List.mem_cons.mp hp with hp | hp
    · subst hp
      exact ⟨hname, hmono2 _ hmem⟩
    · exact hzip p hp

/-! ### Demasking lemmas -/

theorem demaskF_nil (m : Mapping) (fuel : Nat) : demaskF m fuel [] = [] := by
  cases fuel <;> rfl

/-- The spec grammar parses the emitted wire token and stops exactly at
its closing brace. -/
theorem specMatchDetailed_token (id : String) (v : List Char) (rest : List Char)
    (hid : id.data ≠ []) (hidc : ∀ c ∈ id.data, c ≠ ',' ∧ c ≠ '}')
    (hv : ∀ c ∈ v, c ≠ sq) :
    specMatchDetailed (mkTokL id v ++ rest) = some (id, v, rest) := by
  have hdata : mkTokL id v ++ rest =
      idLit ++ (id.data ++ ',' :: ' ' :: (txtLit ++ sq :: (v ++ sq :: '}' :: rest))) := by
    simp [mkTokL, mkDetailedTok]
  have hall : ∀ c ∈ id.data, idChar c = true := fun c hc => by
    simp [idChar, (hidc c hc).1, (hidc c hc).2]
  have hie : (id.data).isEmpty = false := by
    cases hd : id.data with
    | nil => exact absurd hd hid
    | cons a l => rfl
  have hvd : ∀ c ∈ v, (fun c => decide (c ≠ sq)) c = true := fun c hc => by
    simp [hv c hc]
  rw [hdata]
  unfold specMatchDetailed
  rw [stripLit_self]
  dsimp only
  rw [takeWhile_append_eq _ _ _ hall (by rfl), dropWhile_append_eq _ _ _ hall (by rfl)]
  simp only [hie, Bool.false_eq_true, if_false]
  have hdw : List.dropWhile jsWs (' ' :: (txtLit ++ sq :: (v ++ sq :: '}' :: rest))) =
      txtLit ++ sq :: (v ++ sq :: '}' :: rest) := rfl
  rw [hdw, stripLit_self]
  have hqt : quoteChar sq = true := rfl
  simp only [hqt, if_true]
  rw [takeWhile_append_eq v sq ('}' :: rest) hvd (by simp),
    dropWhile_append_eq v sq ('}' :: rest) hvd (by simp)]
  have hcb : closeBrace ('}' :: rest) = some rest := rfl
  simp only [if_pos rfl, hcb]
  simp

/-- A brace-free segment passes through the demasking scan unchanged. -/
theorem demaskF_seg (m : Mapping) :
    ∀ (seg : List Char) (rest : List Char) (fuel : Nat),
    (∀ c ∈ seg, c ≠ '{') → (seg ++ rest).length ≤ fuel →
    demaskF m fuel (seg ++ rest) = seg ++ demaskF m (fuel - seg.length) rest := by
  intro seg
  induction seg with
  | nil => intro rest fuel _ _; simp
  | cons c seg ih =>
    intro rest fuel hseg hlen
    cases fuel with
    | zero => simp at hlen
    | succ f =>
      have hc : c ≠ '{' := hseg c (by simp)
      have h1 : specMatchDetailed (c :: (seg ++ rest)) = none :=
        specMatchDetailed_none_of_head c _ hc
      have h2 : specMatchSimple (c :: (seg ++ rest)) = none :=
        specMatchSimple_none_of_head c _ hc
      show demaskF m (f + 1) (c :: (seg ++ rest)) = _
      simp only [demaskF, h1, h2]
      rw [ih rest f (fun x hx => hseg x (by simp [hx]))
        (by simp only [List.cons_append, List.length_cons, List.length_append]
              at hlen ⊢
            omega)]
      have harith : f + 1 - (seg.length + 1) = f - seg.length := by omega
      simp only [List.cons_append, List.length_cons, harith]

/-- Scanning from an emitted wire token substitutes the id lookup (or the
embedded value) and proceeds after the token. -/
theorem demaskF_token (m : Mapping) (id : String) (v : List Char) (rest : List Char)
    (fuel : Nat) (hid : id.data ≠ []) (hidc : ∀ c ∈ id.data, c ≠ ',' ∧ c ≠ '}')
    (hv : ∀ c ∈ v, c ≠ sq) (hlen : (mkTokL id v ++ rest).length ≤ fuel) :
    demaskF m fuel (mkTokL id v ++ rest) =
      (match m.byId.find? (fun p => p.1 = id) with
       | some p => p.2.name.data
       | none => v) ++ demaskF m (fuel - 1) rest := by
  cases fuel with
  | zero =>
    exfalso
    have : mkTokL id v ≠ [] := by simp [mkTokL, mkDetailedTok, idLit]
    cases hmk : mkTokL id v with
    | nil => exact this hmk
    | cons a l => rw [hmk] at hlen; simp at hlen
  | succ f =>
    have hcons : mkTokL id v ++ rest =
        '{' :: ('I' :: 'D' :: '=' ::
          (id.data ++ ',' :: ' ' :: (txtLit ++ sq :: (v ++ sq :: '}' :: rest)))) := by
      simp [mkTokL, mkDetailedTok, idLit]
    have hm := specMatchDetailed_token id v rest hid hidc hv
    rw [hcons] at hm
    rw [hcons]
    show demaskF m (f + 1) _ = _
    simp only [demaskF, hm]
    simp

/-- With pairwise-distinct ids, looking an entity's id up in the mapping's
id index returns that entity. -/
theorem mapOf_byId_lookup :
    ∀ (es : List SensitiveEntity), (es.map (fun e => e.id)).Nodup →
    ∀ e ∈ es, (mapOf es).byId.find? (fun p => p.1 = e.id) = some (e.id, e) := by
  intro es
  induction es with
  | nil => intro _ e he; cases he
  | cons x rest ih =>
    intro hnd e he
    have hx : (mapOf (x :: rest)).byId =
        (x.id, x) :: (mapOf rest).byId := rfl
    rw [hx, List.find?_cons]
    rcases List.mem_cons.mp he with rfl | hmem
    · have hd : (decide ((e.id, e).1 = e.id)) = true := by simp
      rw [hd]
    · have hne : x.id ≠ e.id := by
        intro heq
        rw [List.map_cons, List.nodup_cons] at hnd
        exact hnd.1 (heq ▸ List.mem_map.mpr ⟨e, hmem, rfl⟩)
      have hd : (decide ((x.id, x).1 = e.id)) = false := by
        simp only [decide_eq_false_iff_not]
        simpa using hne
      rw [hd]
      rw [List.map_cons, List.nodup_cons] at hnd
      exact ih hnd.2 e hmem

/-- Splitting a suffix of the text at a span reassembles it. -/
theorem drop_decompose (t : List Char) (pos s l : Nat)
    (h1 : pos ≤ s) (_h2 : s + l ≤ t.length) :
    (t.drop pos).take (s - pos) ++
      ((t.drop s).take l ++ t.drop (s + l)) = t.drop pos := by
  have hds : t.drop s = (t.drop pos).drop (s - pos) := by
    rw [List.drop_drop]
    congr 1
    omega
  have hdsl : t.drop (s + l) = ((t.drop pos).drop (s - pos)).drop l := by
    rw [List.drop_drop, List.drop_drop]
    congr 1
    omega
  rw [hds, hdsl, List.take_append_drop, List.take_append_drop]

/-- The spans described by a well-formed list are nonempty. -/
theorem maskWF_lens (t : List Char) :
    ∀ (spans : List DetSpan) (pos : Nat), maskWF t pos spans = true →
    ∀ sp ∈ spans, 0 < sp.len := by
  intro spans
  induction spans with
  | nil => intro pos _ sp hsp; cases hsp
  | cons sp0 rest ih =>
    intro pos hwf sp hsp
    unfold maskWF at hwf
    simp only [Bool.and_eq_true, decide_eq_true_eq] at hwf
    rcases List.mem_cons.mp hsp with rfl | hmem
    · exact hwf.1.1.1.1.2
    · exact ih (sp0.start + sp0.len) hwf.2 sp hmem

/-- A well-formed span list survives the sweep untouched (the spans are
already disjoint and ordered). -/
theorem sweepSpans_eq (t : List Char) :
    ∀ (spans : List DetSpan) (pos endPos : Nat), endPos ≤ pos →
    maskWF t pos spans = true → sweepSpans endPos spans = spans := by
  intro spans
  induction spans with
  | nil => intro pos endPos _ _; rfl
  | cons sp rest ih =>
    intro pos endPos hle hwf
    unfold maskWF at hwf
    simp only [Bool.and_eq_true, decide_eq_true_eq] at hwf
    obtain ⟨⟨⟨⟨⟨hpos, hlen⟩, hbound⟩, hseg⟩, hval⟩, hrest⟩ := hwf
    unfold sweepSpans
    rw [if_neg (by omega)]
    rw [ih (sp.start + sp.len) (sp.start + sp.len) (le_refl _) hrest]

/-- Well-formed spans all have nonzero length, so the length filter keeps
them all. -/
theorem filter_len_eq (t : List Char) (spans : List DetSpan) (pos : Nat)
    (hwf : maskWF t pos spans = true) :
    spans.filter (fun sp => sp.len ≠ 0) = spans := by
  rw [List.filter_eq_self]
  intro sp hsp
  have := maskWF_lens t spans pos hwf sp hsp
  simpa using by omega

/-- The heart of the round trip: demasking the built masked text restores
the original suffix, provided the segments are brace-free, the values
quote-free, and every emitted id resolves (via the mapping) to the
original value. -/
theorem demask_build (t : List Char) (m : Mapping) :
    ∀ (pairs : List (DetSpan × SensitiveEntity)) (pos fuel : Nat),
    maskWF t pos (pairs.map Prod.fst) = true →
    (∀ p ∈ pairs, idOk p.2 ∧
      ∃ e2, m.byId.find? (fun q => q.1 = p.2.id) = some (p.2.id, e2) ∧
        e2.name.data = extractVal t p.1) →
    (buildMasked t pos pairs).length ≤ fuel →
    demaskF m fuel (buildMasked t pos pairs) = t.drop pos := by
  intro pairs
  induction pairs with
  | nil =>
    intro pos fuel hwf _ hlen
    unfold maskWF at hwf
    have hseg : ∀ c ∈ t.drop pos, c ≠ '{' := by
      intro c hc
      have := List.all_eq_true.mp hwf c hc
      simpa using this
    have hlen2 : ((t.drop pos) ++ ([] : List Char)).length ≤ fuel := by
      simp only [List.append_nil]
      exact hlen
    have hsplit := demaskF_seg m (t.drop pos) [] fuel hseg hlen2
    simpa [demaskF_nil] using hsplit
  | cons pe rest ih =>
    intro pos fuel hwf hprops hlen
    obtain ⟨sp, e⟩ := pe
    simp only [List.map_cons] at hwf
    unfold maskWF at hwf
    simp only [Bool.and_eq_true, decide_eq_true_eq] at hwf
    obtain ⟨⟨⟨⟨⟨hpos, hlen0⟩, hbound⟩, hseg⟩, hval⟩, hrest⟩ := hwf
    obtain ⟨hidok, e2, hfind, he2⟩ := hprops (sp, e) (by simp)
    have hbuild : buildMasked t pos ((sp, e) :: rest) =
        (t.drop pos).take (sp.start - pos) ++
          (mkTokL e.id (extractVal t sp) ++
            buildMasked t (sp.start + sp.len) rest) := by
      rw [buildMasked, List.append_assoc]
    rw [hbuild] at hlen ⊢
    have hsegP : ∀ c ∈ (t.drop pos).take (sp.start - pos), c ≠ '{' := by
      intro c hc
      have := List.all_eq_true.mp hseg c hc
      simpa using this
    rw [demaskF_seg m _ _ fuel hsegP hlen]
    have hvq : ∀ c ∈ extractVal t sp, c ≠ sq := fun c hc => by
      have := List.all_eq_true.mp hval c hc
      simpa using this
    have hlen2 : (mkTokL e.id (extractVal t sp) ++
        buildMasked t (sp.start + sp.len) rest).length ≤
        fuel - ((t.drop pos).take (sp.start - pos)).length := by
      simp only [List.length_append] at hlen ⊢
      omega
    rw [demaskF_token m e.id (extractVal t sp) _ _ hidok.1 hidok.2 hvq hlen2]
    rw [hfind]
    dsimp only
    rw [he2]
    have htok : 0 < (mkTokL e.id (extractVal t sp)).length := by
      simp [mkTokL, mkDetailedTok, idLit]
    have hlen3 : (buildMasked t (sp.start + sp.len) rest).length ≤
        fuel - ((t.drop pos).take (sp.start - pos)).length - 1 := by
      simp only [List.length_append] at hlen hlen2 ⊢
      omega
    rw [ih (sp.start + sp.len)
      (fuel - ((t.drop pos).take (sp.start - pos)).length - 1) hrest
      (fun p hp => hprops p (by simp [hp])) hlen3]
    exact drop_decompose t pos sp.start sp.len hpos hbound

/-- C1 (amended): the round trip holds for well-formed inputs — ordered,
disjoint, in-bounds, nonempty detector spans whose values contain no
single quote, unmasked segments containing no `{`, and a well-formed
dictionary: demasking `maskCore`'s output with the mapping built from its
`entitiesFound` reproduces the original text byte for byte. It fails in
general when the original text itself contains token-shaped substrings
(see the counterexample). -/
theorem mask_roundtrip (t : String) (dict : List SensitiveEntity)
    (spans : List DetSpan) (hwf : maskWF t.data 0 spans = true)
    (hd : dictWF dict = true) :
    demaskCore (maskCore t dict spans).maskedText
      (mapOf (maskCore t dict spans).entitiesFound) = t := by
  have hfilter : spans.filter (fun sp => sp.len ≠ 0) = spans :=
    filter_len_eq t.data spans 0 hwf
  have hsweep : sweepSpans 0 spans = spans :=
    sweepSpans_eq t.data spans 0 0 (le_refl 0) hwf
  have hinit : stInv dict ⟨[], 1⟩ := by
    refine ⟨by simp, by simp, ?_, ?_, by decide⟩ <;>
      exact fun e he => absurd he (List.not_mem_nil e)
  obtain ⟨hstF, hlenF, _, hzipF⟩ := encodeVals_inv dict hd
    (spans.map (fun sp => (String.mk (extractVal t.data sp), sp.category)))
    ⟨[], 1⟩ hinit
  rcases henc : encodeVals dict ⟨[], 1⟩
      (spans.map (fun sp => (String.mk (extractVal t.data sp), sp.category)))
    with ⟨stF, es⟩
  rw [henc] at hstF hlenF hzipF
  obtain ⟨hnames, hids, hidok, hsrc, hcnt⟩ := hstF
  have hmask : maskCore t dict spans =
      ⟨String.mk (buildMasked t.data 0 (spans.zip es)), stF.acc, none⟩ := by
    unfold maskCore
    rw [hfilter, hsweep]
    simp only [henc]
  rw [hmask]
  have heslen : spans.length ≤ es.length := by
    rw [hlenF, List.length_map]
  have hmapfst : (spans.zip es).map Prod.fst = spans :=
    List.map_fst_zip spans es heslen
  have hprops : ∀ p ∈ spans.zip es, idOk p.2 ∧
      ∃ e2, (mapOf stF.acc).byId.find? (fun q => q.1 = p.2.id) =
        some (p.2.id, e2) ∧ e2.name.data = extractVal t.data p.1 := by
    intro p hp
    have hpv : (Prod.map (fun sp => (String.mk (extractVal t.data sp), sp.category))
        id p) ∈ (spans.map (fun sp =>
          (String.mk (extractVal t.data sp), sp.category))).zip es := by
      rw [List.zip_map_left]
      exact List.mem_map.mpr ⟨p, hp, rfl⟩
    obtain ⟨hname, hmem⟩ := hzipF _ hpv
    have hnamev : p.2.name = String.mk (extractVal t.data p.1) := by
      simpa using hname
    refine ⟨hidok p.2 hmem, p.2, mapOf_byId_lookup stF.acc hids p.2 hmem, ?_⟩
    rw [hnamev]
  show demaskCore (String.mk (buildMasked t.data 0 (spans.zip es)))
      (mapOf stF.acc) = t
  unfold demaskCore
  have hbuildeq := demask_build t.data (mapOf stF.acc) (spans.zip es) 0
    (buildMasked t.data 0 (spans.zip es)).length
    (by rw [hmapfst]; exact hwf) hprops (le_refl _)
  have hdata : (String.mk (buildMasked t.data 0 (spans.zip es))).data =
      buildMasked t.data 0 (spans.zip es) := rfl
  rw [hdata, hbuildeq]
  rfl

/-- C1 (counterexample): the round trip fails for arbitrary texts — if the
original text itself contains a detailed-token-shaped substring and the
detector reports nothing, masking returns the text unchanged with an empty
entity list, and demasking then substitutes the embedded fallback value:
`{ID=1, TXT='x'}` comes back as `x`, not as the original text. -/
theorem roundtrip_token_in_text_cex :
    (maskCore "\x7bID=1, TXT='x'\x7d" [] []).maskedText = "\x7bID=1, TXT='x'\x7d" ∧
    (maskCore "\x7bID=1, TXT='x'\x7d" [] []).entitiesFound = [] ∧
    demaskCore (maskCore "\x7bID=1, TXT='x'\x7d" [] []).maskedText
      (mapOf (maskCore "\x7bID=1, TXT='x'\x7d" [] []).entitiesFound) = "x" ∧
    ("x" : String) ≠ "\x7bID=1, TXT='x'\x7d" := by
  refine ⟨rfl, rfl, by decide, by decide⟩

/-- C1 (witness): a concrete text with a dictionary-matched value and a
fresh value round-trips. -/
theorem mask_roundtrip_witness :
    (maskWF ("Hi Bob, bye Ann" : String).data 0
      [⟨3, 3, some "person"⟩, ⟨12, 3, some "person"⟩] = true ∧
     dictWF [⟨"D7", "Bob", "PERSON_X", some "person"⟩] = true) ∧
    demaskCore
      (maskCore "Hi Bob, bye Ann" [⟨"D7", "Bob", "PERSON_X", some "person"⟩]
        [⟨3, 3, some "person"⟩, ⟨12, 3, some "person"⟩]).maskedText
      (mapOf (maskCore "Hi Bob, bye Ann" [⟨"D7", "Bob", "PERSON_X", some "person"⟩]
        [⟨3, 3, some "person"⟩, ⟨12, 3, some "person"⟩]).entitiesFound) =
      "Hi Bob, bye Ann" :=
  ⟨⟨by decide, by decide⟩,
   mask_roundtrip "Hi Bob, bye Ann" [⟨"D7", "Bob", "PERSON_X", some "person"⟩]
     [⟨3, 3, some "person"⟩, ⟨12, 3, some "person"⟩] (by decide) (by decide)⟩

end SafeDialog
